import Mathlib

/-!
# Verification of the English→Devanagari transliteration engine and the
# Devanagari→Roman cleanup pass of `app.py`

Shallow embedding of the two deterministic text transducers of the
repository (class `TextTransformer` in `src/app.py`).  Text is modelled as
`List Char`; Python strings are UTF-8 sequences of code points, which this
matches.  Python `str.lower`, `str.upper`, `str.islower`, `str.isupper`
are modelled on the ASCII letters (the only cased characters the program
distinguishes; Devanagari has no case, so on the ASCII + Devanagari
character domain of the program the model agrees with Python).
-/

namespace TextToText

/-- The apostrophe character (U+0027). -/
def apos : Char := Char.ofNat 39

/-- The lowercase ASCII letters, in order. -/
def lowerLetters : List Char := "abcdefghijklmnopqrstuvwxyz".data

/-- The uppercase ASCII letters, in order. -/
def upperLetters : List Char := "ABCDEFGHIJKLMNOPQRSTUVWXYZ".data

/-- Models Python `str.lower` on one character (a case table on the ASCII
letters; every other character is its own lower case). -/
def pyToLower (c : Char) : Char :=
  match (upperLetters.zip lowerLetters).find? fun p => p.1 == c with
  | some p => p.2
  | none => c

/-- Models Python `str.upper` on one character (a case table on the ASCII
letters; every other character is its own upper case). -/
def pyToUpper (c : Char) : Char :=
  match (lowerLetters.zip upperLetters).find? fun p => p.1 == c with
  | some p => p.2
  | none => c

/-- Models Python `str.islower` for one character (ASCII letters;
Devanagari characters are uncased in Python, matching the `false` here). -/
def pyIsLower (c : Char) : Bool :=
  lowerLetters.contains c

/-- Models Python `str.isupper` for one character (ASCII letters). -/
def pyIsUpper (c : Char) : Bool :=
  upperLetters.contains c

/-- Models Python whitespace (`str.split()` / `str.strip()` / `str.isspace`)
for the ASCII whitespace characters. -/
def pyIsSpace (c : Char) : Bool :=
  c = ' ' || c = '\t' || c = '\n' || c = '\x0d' ||
  c = '\x0b' || c = '\x0c'

/-- Models Python `str.isalpha` for one character, on the ASCII letters and
the Devanagari letters (category Lo) that this program handles.  Devanagari
vowel signs and other combining marks are not alphabetic in Python. -/
def pyIsAlpha (c : Char) : Bool :=
  pyIsLower c || pyIsUpper c ||
  (0x904 ≤ c.toNat && c.toNat ≤ 0x939) || c.toNat = 0x93D ||
  c.toNat = 0x950 || (0x958 ≤ c.toNat && c.toNat ≤ 0x961) ||
  (0x971 ≤ c.toNat && c.toNat ≤ 0x97F)

/-- The leading punctuation set of the tokenizer: double quote,
apostrophe and opening parenthesis (the first `while` loop of
`english_to_devanagari_transliteration` in `app.py`). -/
def leadPunct (c : Char) : Bool :=
  c = '"' || c = apos || c = '('

/-- The trailing punctuation set of the tokenizer: period, comma,
exclamation and question marks, semicolon, colon, closing parenthesis,
apostrophe, double quote and ellipsis (the second `while` loop). -/
def trailPunct (c : Char) : Bool :=
  c = '.' || c = ',' || c = '!' || c = '?' || c = ';' || c = ':' ||
  c = ')' || c = apos || c = '"' || c = '…'

/-- The dict `self.eng_to_dev_map` of `app.py`, in source (insertion) order.  The
source dict literal repeats the keys `take` and `too` with identical
values, so first-match lookup over this list coincides with the Python
dict (where the last duplicate wins). -/
def engToDevPairs : List (List Char × List Char) := [
  ("a".data, "अ".data),
  ("b".data, "ब".data),
  ("c".data, "क".data),
  ("d".data, "द".data),
  ("e".data, "ई".data),
  ("f".data, "फ".data),
  ("g".data, "ग".data),
  ("h".data, "ह".data),
  ("i".data, "आई".data),
  ("j".data, "ज".data),
  ("k".data, "क".data),
  ("l".data, "ल".data),
  ("m".data, "म".data),
  ("n".data, "न".data),
  ("o".data, "ओ".data),
  ("p".data, "प".data),
  ("q".data, "क्यू".data),
  ("r".data, "आर".data),
  ("s".data, "एस".data),
  ("t".data, "ट".data),
  ("u".data, "यू".data),
  ("v".data, "वी".data),
  ("w".data, "डब्ल्यू".data),
  ("x".data, "एक्स".data),
  ("y".data, "वाई".data),
  ("z".data, "जेड".data),
  ("th".data, "थ".data),
  ("sh".data, "श".data),
  ("ch".data, "च".data),
  ("ph".data, "फ".data),
  ("gh".data, "घ".data),
  ("kh".data, "ख".data),
  ("dh".data, "ध".data),
  ("bh".data, "भ".data),
  ("jh".data, "झ".data),
  ("ng".data, "ंग".data),
  ("ck".data, "क".data),
  ("st".data, "स्ट".data),
  ("sp".data, "स्प".data),
  ("sc".data, "स्क".data),
  ("sk".data, "स्क".data),
  ("aa".data, "आ".data),
  ("ee".data, "ई".data),
  ("ii".data, "ई".data),
  ("oo".data, "ऊ".data),
  ("uu".data, "ऊ".data),
  ("ai".data, "ऐ".data),
  ("ay".data, "ए".data),
  ("au".data, "औ".data),
  ("aw".data, "ऑ".data),
  ("ey".data, "ए".data),
  ("ou".data, "ओ".data),
  ("ow".data, "आउ".data),
  ("oy".data, "ऑय".data),
  ("ea".data, "ई".data),
  ("ie".data, "आई".data),
  ("oa".data, "ओ".data),
  ("ue".data, "यू".data),
  ("ui".data, "यूआई".data),
  ("eu".data, "यू".data),
  ("the".data, "द".data),
  ("and".data, "एंड".data),
  ("are".data, "आर".data),
  ("you".data, "यू".data),
  ("for".data, "फॉर".data),
  ("not".data, "नॉट".data),
  ("but".data, "बट".data),
  ("can".data, "कैन".data),
  ("all".data, "ऑल".data),
  ("any".data, "एनी".data),
  ("had".data, "हैड".data),
  ("her".data, "हर".data),
  ("was".data, "वॉज़".data),
  ("one".data, "वन".data),
  ("our".data, "आवर".data),
  ("out".data, "आउट".data),
  ("day".data, "डे".data),
  ("get".data, "गेट".data),
  ("has".data, "हैज़".data),
  ("him".data, "हिम".data),
  ("his".data, "हिज़".data),
  ("how".data, "हाउ".data),
  ("man".data, "मैन".data),
  ("new".data, "न्यू".data),
  ("now".data, "नाउ".data),
  ("old".data, "ओल्ड".data),
  ("see".data, "सी".data),
  ("two".data, "टू".data),
  ("way".data, "वे".data),
  ("who".data, "हू".data),
  ("boy".data, "बॉय".data),
  ("did".data, "डिड".data),
  ("its".data, "इट्स".data),
  ("let".data, "लेट".data),
  ("put".data, "पुट".data),
  ("say".data, "से".data),
  ("she".data, "शी".data),
  ("too".data, "टू".data),
  ("use".data, "यूज़".data),
  ("what".data, "व्हाट".data),
  ("when".data, "व्हेन".data),
  ("where".data, "व्हेयर".data),
  ("why".data, "व्हाई".data),
  ("with".data, "विथ".data),
  ("will".data, "विल".data),
  ("were".data, "वर".data),
  ("been".data, "बीन".data),
  ("have".data, "हैव".data),
  ("this".data, "दिस".data),
  ("that".data, "दैट".data),
  ("they".data, "दे".data),
  ("them".data, "देम".data),
  ("there".data, "देयर".data),
  ("then".data, "देन".data),
  ("than".data, "दैन".data),
  ("these".data, "दीज़".data),
  ("those".data, "दोज़".data),
  ("think".data, "थिंक".data),
  ("through".data, "थ्रू".data),
  ("time".data, "टाइम".data),
  ("take".data, "टेक".data),
  ("tell".data, "टेल".data),
  ("turn".data, "टर्न".data),
  ("try".data, "ट्राई".data),
  ("first".data, "फर्स्ट".data),
  ("wife".data, "वाइफ".data),
  ("wedding".data, "वेडिंग".data),
  ("night".data, "नाइट".data),
  ("lying".data, "लाइंग".data),
  ("bed".data, "बेड".data),
  ("quietly".data, "क्वाइटली".data),
  ("said".data, "सेड".data),
  ("die".data, "डाई".data),
  ("died".data, "डाइड".data),
  ("life".data, "लाइफ".data),
  ("born".data, "बॉर्न".data),
  ("married".data, "मैरिड".data),
  ("marry".data, "मैरी".data),
  ("guess".data, "गेस".data),
  ("forgot".data, "फॉरगॉट".data),
  ("about".data, "अबाउट".data),
  ("need".data, "नीड".data),
  ("needing".data, "नीडिंग".data),
  ("kid".data, "किड".data),
  ("child".data, "चाइल्ड".data),
  ("suppose".data, "सपोज़".data),
  ("might".data, "माइट".data),
  ("led".data, "लेड".data),
  ("live".data, "लिव".data),
  ("lived".data, "लिव्ड".data),
  ("long".data, "लॉन्ग".data),
  ("care".data, "केयर".data),
  ("take".data, "टेक".data),
  ("daughter".data, "डॉटर".data),
  ("remember".data, "रिमेम्बर".data),
  ("mother".data, "मदर".data),
  ("even".data, "ईवन".data),
  ("well".data, "वेल".data),
  ("too".data, "टू".data),
  ("doesnt".data, "डज़न्ट".data),
  ("don".data ++ apos :: "t".data, "डोन्ट".data),
  ("doesn".data ++ apos :: "t".data, "डज़न्ट".data),
  ("didn".data ++ apos :: "t".data, "डिडन्ट".data),
  ("won".data ++ apos :: "t".data, "वोन्ट".data),
  ("can".data ++ apos :: "t".data, "कान्ट".data),
  ("isn".data ++ apos :: "t".data, "इज़न्ट".data),
  ("aren".data ++ apos :: "t".data, "आरन्ट".data),
  ("wasn".data ++ apos :: "t".data, "वॉज़न्ट".data),
  ("weren".data ++ apos :: "t".data, "वरन्ट".data),
  ("i".data ++ apos :: "m".data, "आइम".data),
  ("you".data ++ apos :: "re".data, "यूआर".data),
  ("we".data ++ apos :: "re".data, "वीआर".data),
  ("they".data ++ apos :: "re".data, "देयर".data),
  ("it".data ++ apos :: "s".data, "इट्स".data),
  ("that".data ++ apos :: "s".data, "दैट्स".data),
  ("what".data ++ apos :: "s".data, "व्हाट्स".data),
  ("where".data ++ apos :: "s".data, "व्हेयर्स".data),
  ("who".data ++ apos :: "s".data, "हूज़".data),
  ("ing".data, "इंग".data),
  ("tion".data, "शन".data),
  ("sion".data, "शन".data),
  ("er".data, "र".data),
  ("ed".data, "ड".data),
  ("ly".data, "ली".data),
  ("ty".data, "टी".data),
  ("ry".data, "री".data),
  ("al".data, "ल".data),
  ("le".data, "ल".data),
  ("ment".data, "मेंट".data),
  ("ness".data, "नेस".data),
  ("able".data, "एबल".data),
  ("ible".data, "इबल".data)]

/-- Lookup in `eng_to_dev_map` (`substring in self.eng_to_dev_map` /
`self.eng_to_dev_map[substring]`). -/
def lookupDev (s : List Char) : Option (List Char) :=
  (engToDevPairs.find? fun p => p.1 == s).map fun p => p.2

/-- The length-descending probe of `_transliterate_word_advanced`:
`for length in range(min(8, len(word) - i), 0, -1)` — try the first
`n` characters of `l`, then `n - 1`, …, down to 1. -/
def findMatch (l : List Char) : Nat → Option (Nat × List Char)
  | 0 => none
  | n + 1 =>
    match lookupDev (l.take (n + 1)) with
    | some v => some (n + 1, v)
    | none => findMatch l n

/-- The vowel test on `word[i+1]` guarded by `i < len(word) - 1`: the character
after the cursor exists and is one of the five vowels. -/
def nextVowel : List Char → Bool
  | [] => false
  | d :: _ => d = 'a' || d = 'e' || d = 'i' || d = 'o' || d = 'u'

/-- The body of the `while i < len(word)` loop of
`_transliterate_word_advanced`.  `l` is the not-yet-consumed part of the
word, `i` the cursor position in the whole word.  The loop consumes at
least one character per iteration, so fuel equal to the word length
suffices; `transliterateWordAdvanced` below supplies it. -/
def translitCoreFuel : Nat → List Char → Nat → List Char
  | 0, _, _ => []
  | _ + 1, [], _ => []
  | f + 1, c :: cs, i =>
    match findMatch (c :: cs) (min 8 (cs.length + 1)) with
    | some (k, v) => v ++ translitCoreFuel f ((c :: cs).drop k) (i + k)
    | none =>
      (if pyIsAlpha c then
        if c = 'y' ∧ 0 < i then "ी".data
        else if c = 'w' ∧ nextVowel cs then "व".data
        else
          match lookupDev [c] with
          | some v => v
          | none => [c]
      else [c]) ++ translitCoreFuel f cs (i + 1)

/-- Function `_transliterate_word_advanced` of `app.py`. -/
def transliterateWordAdvanced (w : List Char) : List Char :=
  translitCoreFuel w.length w 0

/-- The matcher loop viewed from cursor position `i` with `l` the
not-yet-consumed characters (the fuel is the needed bound
`l.length`); `transliterateWordAdvanced w` is `translitFrom w 0`. -/
def translitFrom (l : List Char) (i : Nat) : List Char :=
  translitCoreFuel l.length l i

/-- Comparison definition for the greedy matcher with the fallback
heuristics removed: it returns `none` as soon as some cursor position has
no table match, and otherwise the concatenation of the matched values.
Used to state that the fallback branch of the source loop is unreachable
on all-lowercase-ASCII cores. -/
def translitNoFallbackFuel : Nat → List Char → Option (List Char)
  | 0, [] => some []
  | 0, _ :: _ => none
  | _ + 1, [] => some []
  | f + 1, c :: cs =>
    match findMatch (c :: cs) (min 8 (cs.length + 1)) with
    | some (k, v) => (translitNoFallbackFuel f ((c :: cs).drop k)).map fun r => v ++ r
    | none => none

/-- The function `translitNoFallbackFuel` with sufficient fuel. -/
def translitNoFallback (w : List Char) : Option (List Char) :=
  translitNoFallbackFuel w.length w

/-- The leading-punctuation stripper of
`english_to_devanagari_transliteration`: the `while` loop that moves
characters from the front of the lowered token into `prefix`.  Returns
(accumulated leading run, rest). -/
def stripLead : List Char → List Char × List Char
  | [] => ([], [])
  | c :: cs =>
    if leadPunct c then
      let p := stripLead cs
      (c :: p.1, p.2)
    else ([], c :: cs)

/-- The trailing-punctuation stripper: the `while` loop that moves
characters from the back into `suffix`, prepending each, so the suffix
keeps its original order.  Returns (core, accumulated trailing run). -/
def stripTrail (l : List Char) : List Char × List Char :=
  ((l.reverse.dropWhile trailPunct).reverse,
   (l.reverse.takeWhile trailPunct).reverse)

/-- The per-token processing of `english_to_devanagari_transliteration`:
lower-case, strip punctuation, whole-word lookup, else the advanced
matcher; a token with empty core is emitted verbatim. -/
def processWord (word : List Char) : List Char :=
  let lw := word.map pyToLower
  let pr := stripLead lw
  let ct := stripTrail pr.2
  if ct.1 = [] then word
  else
    match lookupDev ct.1 with
    | some v => pr.1 ++ v ++ ct.2
    | none => pr.1 ++ transliterateWordAdvanced ct.1 ++ ct.2

/-- Python `line.split()`: split on runs of whitespace, no empty tokens.
`acc` is the current token, reversed. -/
def splitWhiteAux : List Char → List Char → List (List Char)
  | [], acc => if acc = [] then [] else [acc.reverse]
  | c :: cs, acc =>
    if pyIsSpace c then
      if acc = [] then splitWhiteAux cs []
      else acc.reverse :: splitWhiteAux cs []
    else splitWhiteAux cs (c :: acc)

/-- Python `line.split()`. -/
def pySplitWhite (s : List Char) : List (List Char) :=
  splitWhiteAux s []

/-- Python `sep.join(pieces)` for a list separator. -/
def joinSep (sep : List Char) : List (List Char) → List Char
  | [] => []
  | [p] => p
  | p :: q :: rest => p ++ sep ++ joinSep sep (q :: rest)

/-- Python split of the text on the newline character.  Note that Python
splitting of the empty string yields a list holding one empty piece. -/
def splitNlChar : List Char → List (List Char)
  | [] => [[]]
  | c :: cs =>
    if c = '\n' then [] :: splitNlChar cs
    else
      match splitNlChar cs with
      | [] => [[c]]
      | p :: ps => (c :: p) :: ps

/-- Python `str.strip()` (whitespace strip at both ends). -/
def pyStrip (l : List Char) : List Char :=
  ((l.dropWhile pyIsSpace).reverse.dropWhile pyIsSpace).reverse

/-- The per-line processing of `english_to_devanagari_transliteration`:
a blank line (`not line.strip()`) becomes the empty line; otherwise the
whitespace-separated tokens are processed and joined by single spaces. -/
def processLine (line : List Char) : List Char :=
  if pyStrip line = [] then []
  else joinSep [' '] ((pySplitWhite line).map processWord)

/-- Function `english_to_devanagari_transliteration` of `app.py` on `List Char`. -/
def translitList (text : List Char) : List Char :=
  joinSep ['\n'] ((splitNlChar text).map processLine)

/-- Function `english_to_devanagari_transliteration` of `app.py`. -/
def englishToDevanagariTransliteration (s : String) : String :=
  String.mk (translitList s.data)

/-- Python `s.replace(old, new)` for non-empty `old`: replace every
non-overlapping occurrence, scanning left to right; replacement text is
not rescanned.  Each step consumes at least one character of `s`, so fuel
`s.length` suffices (`pyReplace` supplies it). -/
def replaceFuel (pat rep : List Char) : Nat → List Char → List Char
  | 0, s => s
  | f + 1, s =>
    if pat.isPrefixOf s then rep ++ replaceFuel pat rep f (s.drop pat.length)
    else
      match s with
      | [] => []
      | c :: cs => c :: replaceFuel pat rep f cs

/-- Python `s.replace(old, new)` (the program only calls it with
non-empty `old`; an empty `old` is returned unchanged here). -/
def pyReplace (s pat rep : List Char) : List Char :=
  if pat = [] then s else replaceFuel pat rep s.length s

/-- Whether `pat` occurs as a contiguous substring of `s`. -/
def containsSub (s pat : List Char) : Bool :=
  pat.isPrefixOf s ||
    match s with
    | [] => false
    | _ :: cs => containsSub cs pat

/-- The chain removing the three stray symbols (tilde, bar, caret) at the start
of `_clean_romanization`. -/
def removeSyms (s : List Char) : List Char :=
  pyReplace (pyReplace (pyReplace s ['~'] []) ['|'] []) ['^'] []

/-- The `replacements` dict of `_clean_romanization`, in source
(insertion) order.  Several entries are no-ops, kept as in the source. -/
def cleanupReplacements : List (List Char × List Char) := [
  ("aa".data, "aa".data),
  ("ii".data, "ee".data),
  ("uu".data, "oo".data),
  ("R^i".data, "ri".data),
  ("RRi".data, "ri".data),
  ("kh".data, "kh".data),
  ("gh".data, "gh".data),
  ("ch".data, "ch".data),
  ("jh".data, "jh".data),
  ("ñ".data, "ny".data),
  ("th".data, "th".data),
  ("dh".data, "dh".data),
  ("ph".data, "ph".data),
  ("bh".data, "bh".data),
  ("sh".data, "sh".data),
  ("M".data, "m".data),
  ("H".data, "h".data),
  (".n".data, "n".data),
  (".m".data, "m".data),
  (".h".data, "h".data),
  (".t".data, "t".data),
  (".d".data, "d".data),
  (".s".data, "s".data),
  (".r".data, "r".data),
  (".l".data, "l".data),
  ("ti".data, "ti".data),
  ("te".data, "te".data),
  ("ta".data, "ta".data),
  ("tu".data, "tu".data),
  ("ni".data, "ni".data),
  ("ne".data, "ne".data),
  ("na".data, "na".data),
  ("nu".data, "nu".data),
  (" .".data, ".".data),
  (" ,".data, ",".data),
  (" !".data, "!".data),
  (" ?".data, "?".data),
  (" ;".data, ";".data),
  (" :".data, ":".data),
  (apos :: " ".data, [apos]),
  (" \"".data, "\"".data)]

/-- The loop applying every replacement in order, one `str.replace` each. -/
def applyReplacements (s : List Char) : List Char :=
  cleanupReplacements.foldl (fun acc p => pyReplace acc p.1 p.2) s

/-- Adds a character to the front of the first piece of a split result. -/
def consHead (c : Char) : List (List Char) → List (List Char)
  | [] => [[c]]
  | p :: ps => (c :: p) :: ps

/-- Python split of the text on the literal two-character dot-space
separator, leftmost-first, non-overlapping. -/
def splitDotSpace : List Char → List (List Char)
  | [] => [[]]
  | '.' :: ' ' :: rest => [] :: splitDotSpace rest
  | c :: cs => consHead c (splitDotSpace cs)

/-- The per-sentence step of `_clean_romanization`: a non-empty sentence
is stripped; if still non-empty, its first character is upper-cased
(`sentence[0].upper() + sentence[1:]`, or `sentence.upper()` for a
single character — the same thing for one character). -/
def capSentence (s : List Char) : List Char :=
  if s = [] then s
  else
    match pyStrip s with
    | [] => []
    | c :: cs => pyToUpper c :: cs

/-- The sentence-capitalization pass: split on the literal dot-space
separator, capitalize each sentence, and rejoin with the separator. -/
def capitalizeSentences (s : List Char) : List Char :=
  joinSep ('.' :: [' ']) ((splitDotSpace s).map capSentence)

/-- The final fix of `_clean_romanization`: a lowercase first character is upper-cased. -/
def fixFirst : List Char → List Char
  | [] => []
  | c :: cs => if pyIsLower c then pyToUpper c :: cs else c :: cs

/-- Function `_clean_romanization` of `app.py` on `List Char`. -/
def cleanRomanization (s : List Char) : List Char :=
  fixFirst (capitalizeSentences (applyReplacements (removeSyms s)))

/-- Function `_clean_romanization` of `app.py`. -/
def cleanRomanizationStr (s : String) : String :=
  String.mk (cleanRomanization s.data)

/-- The `enhanced_map` dict of `_enhanced_manual_hindi_to_roman`, in
source order.  The loop looks characters up one at a time, so its
multi-character keys (the conjuncts and `अं`/`अः`) can never match; they
are kept as in the source. -/
def enhancedMapPairs : List (List Char × List Char) := [
  ("अ".data, "a".data),
  ("आ".data, "aa".data),
  ("इ".data, "i".data),
  ("ई".data, "ee".data),
  ("उ".data, "u".data),
  ("ऊ".data, "oo".data),
  ("ए".data, "e".data),
  ("ऐ".data, "ai".data),
  ("ओ".data, "o".data),
  ("औ".data, "au".data),
  ("अं".data, "an".data),
  ("अः".data, "ah".data),
  ("क".data, "k".data),
  ("ख".data, "kh".data),
  ("ग".data, "g".data),
  ("घ".data, "gh".data),
  ("ङ".data, "ng".data),
  ("च".data, "ch".data),
  ("छ".data, "chh".data),
  ("ज".data, "j".data),
  ("झ".data, "jh".data),
  ("ञ".data, "ny".data),
  ("ट".data, "t".data),
  ("ठ".data, "th".data),
  ("ड".data, "d".data),
  ("ढ".data, "dh".data),
  ("ण".data, "n".data),
  ("त".data, "t".data),
  ("थ".data, "th".data),
  ("द".data, "d".data),
  ("ध".data, "dh".data),
  ("न".data, "n".data),
  ("प".data, "p".data),
  ("फ".data, "ph".data),
  ("ब".data, "b".data),
  ("भ".data, "bh".data),
  ("म".data, "m".data),
  ("य".data, "y".data),
  ("र".data, "r".data),
  ("ल".data, "l".data),
  ("व".data, "v".data),
  ("श".data, "sh".data),
  ("ष".data, "sh".data),
  ("स".data, "s".data),
  ("ह".data, "h".data),
  ("क्ष".data, "ksh".data),
  ("त्र".data, "tr".data),
  ("ज्ञ".data, "gya".data),
  ("ऋ".data, "ri".data),
  ("ॐ".data, "om".data),
  ("ा".data, "aa".data),
  ("ि".data, "i".data),
  ("ी".data, "ee".data),
  ("ु".data, "u".data),
  ("ू".data, "oo".data),
  ("े".data, "e".data),
  ("ै".data, "ai".data),
  ("ो".data, "o".data),
  ("ौ".data, "au".data),
  ("ं".data, "n".data),
  ("ः".data, "h".data),
  ("्".data, "".data),
  ("ँ".data, "n".data)]

/-- The lookup `char in enhanced_map` / `enhanced_map[char]` for one character. -/
def enhancedLookup (c : Char) : Option (List Char) :=
  (enhancedMapPairs.find? fun p => p.1 == [c]).map fun p => p.2

/-- One iteration of the `for char in hindi_text` loop of
`_enhanced_manual_hindi_to_roman`: a mapped character is replaced by its
mapping; otherwise (whether whitespace, non-alphabetic, or an unmapped
letter — the source appends `char` in both of those branches) the
character passes through. -/
def fallbackChar (c : Char) : List Char :=
  match enhancedLookup c with
  | some v => v
  | none => if pyIsSpace c || !(pyIsAlpha c) then [c] else [c]

/-- The character-mapping loop of `_enhanced_manual_hindi_to_roman`
(before the cleanup pass). -/
def charMapPass : List Char → List Char
  | [] => []
  | c :: cs => fallbackChar c ++ charMapPass cs

/-- Function `_enhanced_manual_hindi_to_roman` of `app.py`: the per-character
mapping followed by `_clean_romanization`. -/
def enhancedManualHindiToRoman (s : List Char) : List Char :=
  cleanRomanization (charMapPass s)

/-- Function `hindi_to_roman_transliteration` of `app.py`.  The primary step is
the external `indic_transliteration` call, modelled as an arbitrary
function that either returns text or raises (`Except.error`); the `try`
block applies `_clean_romanization` to its output, and the `except`
handler calls the manual fallback exactly once. -/
def hindiToRomanTransliteration
    (primary : List Char → Except (List Char) (List Char))
    (t : List Char) : List Char :=
  match primary t with
  | Except.ok r => cleanRomanization r
  | Except.error _ => enhancedManualHindiToRoman t

/-! ## Character-level lemmas for the ASCII case model -/

theorem pyIsLower_iff {c : Char} : pyIsLower c = true ↔ c ∈ lowerLetters := by
  simp [pyIsLower, List.contains]

theorem pyIsUpper_iff {c : Char} : pyIsUpper c = true ↔ c ∈ upperLetters := by
  simp [pyIsUpper, List.contains]

theorem pyToLower_of_notMem {c : Char} (h : c ∉ upperLetters) :
    pyToLower c = c := by
  unfold pyToLower
  have hf : (upperLetters.zip lowerLetters).find? (fun p => p.1 == c) = none := by
    rw [List.find?_eq_none]
    intro p hp hbeq
    exact h ((beq_iff_eq.mp hbeq) ▸ (List.of_mem_zip hp).1)
  rw [hf]

theorem pyToUpper_of_notMem {c : Char} (h : c ∉ lowerLetters) :
    pyToUpper c = c := by
  unfold pyToUpper
  have hf : (lowerLetters.zip upperLetters).find? (fun p => p.1 == c) = none := by
    rw [List.find?_eq_none]
    intro p hp hbeq
    exact h ((beq_iff_eq.mp hbeq) ▸ (List.of_mem_zip hp).1)
  rw [hf]

theorem pyToLower_idem (c : Char) : pyToLower (pyToLower c) = pyToLower c := by
  by_cases h : c ∈ upperLetters
  · exact (by decide :
      ∀ x ∈ upperLetters, pyToLower (pyToLower x) = pyToLower x) c h
  · rw [pyToLower_of_notMem h, pyToLower_of_notMem h]

theorem pyToUpper_idem (c : Char) : pyToUpper (pyToUpper c) = pyToUpper c := by
  by_cases h : c ∈ lowerLetters
  · exact (by decide :
      ∀ x ∈ lowerLetters, pyToUpper (pyToUpper x) = pyToUpper x) c h
  · rw [pyToUpper_of_notMem h, pyToUpper_of_notMem h]

theorem pyIsSpace_pyToLower (c : Char) : pyIsSpace (pyToLower c) = pyIsSpace c := by
  by_cases h : c ∈ upperLetters
  · exact (by decide :
      ∀ x ∈ upperLetters, pyIsSpace (pyToLower x) = pyIsSpace x) c h
  · rw [pyToLower_of_notMem h]

theorem pyIsSpace_pyToUpper (c : Char) : pyIsSpace (pyToUpper c) = pyIsSpace c := by
  by_cases h : c ∈ lowerLetters
  · exact (by decide :
      ∀ x ∈ lowerLetters, pyIsSpace (pyToUpper x) = pyIsSpace x) c h
  · rw [pyToUpper_of_notMem h]

theorem pyToLower_eq_nl_iff {c : Char} : pyToLower c = '\n' ↔ c = '\n' := by
  by_cases h : c ∈ upperLetters
  · exact (by decide :
      ∀ x ∈ upperLetters, pyToLower x = '\n' ↔ x = '\n') c h
  · rw [pyToLower_of_notMem h]

theorem leadPunct_pyToLower {c : Char} (h : leadPunct (pyToLower c) = true) :
    pyToLower c = c := by
  by_cases hm : c ∈ upperLetters
  · have := (by decide :
      ∀ x ∈ upperLetters, leadPunct (pyToLower x) = false) c hm
    rw [this] at h
    cases h
  · exact pyToLower_of_notMem hm

theorem trailPunct_pyToLower {c : Char} (h : trailPunct (pyToLower c) = true) :
    pyToLower c = c := by
  by_cases hm : c ∈ upperLetters
  · have := (by decide :
      ∀ x ∈ upperLetters, trailPunct (pyToLower x) = false) c hm
    rw [this] at h
    cases h
  · exact pyToLower_of_notMem hm

theorem pyIsLower_pyToUpper (c : Char) : pyIsLower (pyToUpper c) = false := by
  by_cases h : c ∈ lowerLetters
  · exact (by decide :
      ∀ x ∈ lowerLetters, pyIsLower (pyToUpper x) = false) c h
  · rw [pyToUpper_of_notMem h]
    exact Bool.eq_false_iff.mpr fun hh => h (pyIsLower_iff.mp hh)

theorem pyToUpper_eq_dot {c : Char} (h : pyToUpper c = '.') : c = '.' := by
  by_cases hm : c ∈ lowerLetters
  · have := (by decide : ∀ x ∈ lowerLetters, ¬ pyToUpper x = '.') c hm
    exact absurd h this
  · rw [pyToUpper_of_notMem hm] at h
    exact h

theorem pyIsUpper_of_alpha_not_lower {c : Char}
    (ha : (pyIsLower c || pyIsUpper c) = true) (hl : pyIsLower c = false) :
    pyIsUpper c = true := by
  rcases Bool.or_eq_true_iff.mp ha with h | h
  · rw [hl] at h
    cases h
  · exact h

/-! ## Tokenizer-stripping lemmas -/

theorem stripLead_spec (l : List Char) :
    l = (stripLead l).1 ++ (stripLead l).2 ∧
    (∀ c ∈ (stripLead l).1, leadPunct c = true) ∧
    (∀ c cs, (stripLead l).2 = c :: cs → leadPunct c = false) := by
  induction l with
  | nil => exact ⟨rfl, by simp [stripLead], by simp [stripLead]⟩
  | cons c cs ih =>
    obtain ⟨ih1, ih2, ih3⟩ := ih
    by_cases h : leadPunct c = true
    · refine ⟨?_, ?_, ?_⟩
      · simpa [stripLead, h] using congrArg (c :: ·) ih1
      · intro x hx
        simp only [stripLead, if_pos h] at hx
        rcases List.mem_cons.mp hx with rfl | hx
        · exact h
        · exact ih2 x hx
      · intro x xs hx
        simp only [stripLead, if_pos h] at hx
        exact ih3 x xs hx
    · refine ⟨by simp [stripLead, h], by simp [stripLead, h], ?_⟩
      intro x xs hx
      simp only [stripLead, if_neg h] at hx
      cases hx
      simpa using h

theorem stripTrail_append (l : List Char) :
    l = (stripTrail l).1 ++ (stripTrail l).2 := by
  unfold stripTrail
  rw [← List.reverse_append, List.takeWhile_append_dropWhile, List.reverse_reverse]

theorem stripTrail_suffix_mem (l : List Char) :
    ∀ x ∈ (stripTrail l).2, trailPunct x = true := by
  intro x hx
  unfold stripTrail at hx
  exact List.mem_takeWhile_imp (List.mem_reverse.mp hx)

theorem stripTrail_core_last (l : List Char) :
    ∀ c cs, ((stripTrail l).1).reverse = c :: cs → trailPunct c = false := by
  intro c cs h
  unfold stripTrail at h
  rw [List.reverse_reverse] at h
  have hh := List.head?_dropWhile_not trailPunct l.reverse
  rw [h] at hh
  simpa using hh

/-! ## C1: whole-word precedence -/

/-- C1.  Whole-word precedence: whenever the stripped, lower-cased core of
a token is exactly a key of the phonetic table, the engine emits
`prefix ++ mapped ++ suffix` (never a concatenation of shorter-substring
matches); in particular `"the boy"` transliterates to `"द बॉय"`. -/
theorem whole_word_precedence :
    (∀ (w pre rest core suf v : List Char),
      stripLead (w.map pyToLower) = (pre, rest) →
      stripTrail rest = (core, suf) →
      lookupDev core = some v →
      processWord w = pre ++ v ++ suf) ∧
    englishToDevanagariTransliteration "the boy" = "द बॉय" := by
  constructor
  · intro w pre rest core suf v h1 h2 h3
    have hcore : core ≠ [] := by
      intro h0
      rw [h0] at h3
      rw [(by decide : lookupDev [] = none)] at h3
      cases h3
    simp only [processWord]
    rw [h1]
    dsimp only
    rw [h2]
    dsimp only
    rw [if_neg hcore, h3]
  · decide

/-- Witness for C1 at the concrete token `"think"` (a multi-character
whole-word key): its transliteration is exactly the mapped value. -/
theorem whole_word_precedence_witness :
    processWord "think".data = "थिंक".data := by
  have h := whole_word_precedence.1 "think".data [] "think".data "think".data []
    "थिंक".data (by decide) (by decide) (by decide)
  simpa using h

/-! ## C6: graceful degradation of romanization -/

/-- C6.  If the primary romanization step raises, the error is caught and
the manual fallback runs exactly once, producing the returned string; if
it succeeds, its output is cleaned.  The function is total (never raises
to its caller). -/
theorem romanization_graceful_degradation :
    ∀ (primary : List Char → Except (List Char) (List Char)) (t : List Char),
      (∀ e, primary t = Except.error e →
        hindiToRomanTransliteration primary t = enhancedManualHindiToRoman t) ∧
      (∀ r, primary t = Except.ok r →
        hindiToRomanTransliteration primary t = cleanRomanization r) := by
  intro primary t
  constructor
  · intro e he
    simp [hindiToRomanTransliteration, he]
  · intro r hr
    simp [hindiToRomanTransliteration, hr]

/-- Witness for C6: a primary step that always raises makes the function
return exactly the fallback output. -/
theorem romanization_graceful_degradation_witness :
    hindiToRomanTransliteration (fun _ => Except.error []) "नमस्ते".data =
      enhancedManualHindiToRoman "नमस्ते".data :=
  (romanization_graceful_degradation (fun _ => Except.error []) "नमस्ते".data).1 [] rfl

/-! ## Counterexamples for C5, C7 and C8 -/

set_option maxRecDepth 10000 in
/-- C5 counterexample: the cleanup pass is not idempotent.  On `"a  ."`
one pass leaves `"A ."` (the single `str.replace` pass only removed one
of the two spaces before the period), and a second pass turns that into
`"A."`. -/
theorem cleanup_not_idempotent :
    ¬ cleanRomanization (cleanRomanization "a  .".data) =
        cleanRomanization "a  .".data := by
  decide

/-- C7 counterexample: the fallback path does not pass every unmapped
character through into its result: `'~'` is not a key of the fallback
table, yet romanizing `"~"` (a punctuation-only string) yields the empty
string, because the final cleanup pass strips `'~'`. -/
theorem fallback_not_passthrough :
    enhancedLookup '~' = none ∧
    enhancedManualHindiToRoman "~".data = [] := by
  constructor
  · decide
  · decide

/-- C8 counterexample: `"द"` is alphabetic for Python (`isalpha` is true
for Devanagari letters) and is returned unchanged by the cleanup pass,
yet the first character of the output is not uppercase — Devanagari has
no case, so the claimed property fails for non-ASCII alphabetic output. -/
theorem capitalization_fails_uncased :
    cleanRomanization "द".data = "द".data ∧
    pyIsAlpha 'द' = true ∧
    pyIsUpper 'द' = false := by
  refine ⟨by decide, by decide, by decide⟩

/-! ## C3: punctuation round-trip -/

theorem leadPunct_fixed {c : Char} (hc : leadPunct c = true) :
    ∀ d : Char, pyToLower d = c → d = c := by
  intro d hd
  have hfix := @leadPunct_pyToLower d (by rw [hd]; exact hc)
  exact hfix.symm.trans hd

theorem trailPunct_fixed {c : Char} (hc : trailPunct c = true) :
    ∀ d : Char, pyToLower d = c → d = c := by
  intro d hd
  have hfix := @trailPunct_pyToLower d (by rw [hd]; exact hc)
  exact hfix.symm.trans hd

theorem map_pyToLower_split :
    ∀ (pre w rest : List Char), w.map pyToLower = pre ++ rest →
      (∀ c ∈ pre, ∀ d : Char, pyToLower d = c → d = c) →
      w.take pre.length = pre ∧ (w.drop pre.length).map pyToLower = rest := by
  intro pre
  induction pre with
  | nil =>
    intro w rest h _
    simpa using h
  | cons p ps ih =>
    intro w rest h hfix
    cases w with
    | nil => simp at h
    | cons d w2 =>
      simp only [List.map_cons, List.cons_append] at h
      injection h with hd ht
      have hdp : d = p := hfix p (List.mem_cons_self p ps) d hd
      obtain ⟨ih1, ih2⟩ :=
        ih w2 rest ht (fun c hc => hfix c (List.mem_cons_of_mem p hc))
      subst hdp
      refine ⟨?_, ?_⟩
      · simpa using ih1
      · simpa using ih2

/-- C3.  Punctuation round-trip: the lowered token decomposes as a maximal
leading-punctuation run, a core, and a maximal trailing-punctuation run in
original order; the original token decomposes around the same prefix and
suffix; an empty core returns the token verbatim, a non-empty core is
transliterated between the reattached prefix and suffix.  Concretely,
`"hello!` transliterates to the double quote, then the mapped core, then
the exclamation mark. -/
theorem punctuation_roundtrip :
    (∀ (w pre rest core suf : List Char),
      stripLead (w.map pyToLower) = (pre, rest) →
      stripTrail rest = (core, suf) →
      w.map pyToLower = pre ++ core ++ suf ∧
      (∀ c ∈ pre, leadPunct c = true) ∧
      (∀ c ∈ suf, trailPunct c = true) ∧
      (∀ c cs, core = c :: cs → leadPunct c = false) ∧
      (∀ c cs, core.reverse = c :: cs → trailPunct c = false) ∧
      (∃ wcore, w = pre ++ wcore ++ suf ∧ wcore.map pyToLower = core) ∧
      (core = [] → processWord w = w) ∧
      (core ≠ [] → processWord w =
        pre ++ (match lookupDev core with
                | some v => v
                | none => transliterateWordAdvanced core) ++ suf)) ∧
    processWord "\"hello!".data = "\"हईललओ!".data := by
  constructor
  · intro w pre rest core suf h1 h2
    obtain ⟨s11, s12, s13⟩ := stripLead_spec (w.map pyToLower)
    rw [h1] at s11 s12 s13
    have a2 := stripTrail_append rest
    have s2m := stripTrail_suffix_mem rest
    have s2l := stripTrail_core_last rest
    rw [h2] at a2 s2m s2l
    have hdecomp : w.map pyToLower = pre ++ core ++ suf := by
      rw [s11, a2, List.append_assoc]
    refine ⟨hdecomp, s12, s2m, ?_, s2l, ?_, ?_, ?_⟩
    · intro c cs hcc
      exact s13 c (cs ++ suf) (by rw [a2, hcc, List.cons_append])
    · obtain ⟨t1, t2⟩ := map_pyToLower_split pre w (core ++ suf)
        (by rw [hdecomp, List.append_assoc])
        (fun c hc => leadPunct_fixed (s12 c hc))
      set w2 := w.drop pre.length with hw2
      have hrev : w2.reverse.map pyToLower = suf.reverse ++ core.reverse := by
        rw [List.map_reverse, t2, List.reverse_append]
      obtain ⟨u1, u2⟩ := map_pyToLower_split suf.reverse w2.reverse core.reverse
        (by rw [hrev])
        (fun c hc => trailPunct_fixed (s2m c (List.mem_reverse.mp hc)))
      have hsplit : w2.reverse =
          suf.reverse ++ w2.reverse.drop suf.reverse.length := by
        conv_lhs => rw [← List.take_append_drop suf.reverse.length w2.reverse]
        rw [u1]
      have hw2eq : w2 = (w2.reverse.drop suf.reverse.length).reverse ++ suf := by
        have hr := congrArg List.reverse hsplit
        rw [List.reverse_reverse, List.reverse_append, List.reverse_reverse] at hr
        exact hr
      refine ⟨(w2.reverse.drop suf.reverse.length).reverse, ?_, ?_⟩
      · calc w = w.take pre.length ++ w.drop pre.length :=
              (List.take_append_drop _ _).symm
          _ = pre ++ w2 := by rw [t1]
          _ = pre ++ ((w2.reverse.drop suf.reverse.length).reverse ++ suf) := by
              rw [← hw2eq]
          _ = pre ++ (w2.reverse.drop suf.reverse.length).reverse ++ suf := by
              rw [List.append_assoc]
      · rw [List.map_reverse, u2, List.reverse_reverse]
    · intro hc
      simp only [processWord]
      rw [h1]
      dsimp only
      rw [h2]
      dsimp only
      rw [if_pos hc]
    · intro hc
      simp only [processWord]
      rw [h1]
      dsimp only
      rw [h2]
      dsimp only
      rw [if_neg hc]
      cases hl : lookupDev core <;> simp [hl]
  · decide

/-- Witness for C3 at the token `"(ok)"`: the parenthesis prefix and
suffix are stripped and reattached around the transliterated core. -/
theorem punctuation_roundtrip_witness :
    processWord "(ok)".data =
      "(".data ++ (match lookupDev "ok".data with
                   | some v => v
                   | none => transliterateWordAdvanced "ok".data) ++ ")".data := by
  have h := punctuation_roundtrip.1 "(ok)".data "(".data "ok)".data "ok".data
    ")".data (by decide) (by decide)
  exact h.2.2.2.2.2.2.2 (by decide)

/-! ## C2: greedy longest match -/

theorem findMatch_spec :
    ∀ (n : Nat) (l : List Char) (k : Nat) (v : List Char),
      findMatch l n = some (k, v) →
      1 ≤ k ∧ k ≤ n ∧ lookupDev (l.take k) = some v ∧
      ∀ m, k < m → m ≤ n → lookupDev (l.take m) = none := by
  intro n
  induction n with
  | zero =>
    intro l k v h
    simp [findMatch] at h
  | succ n ih =>
    intro l k v h
    simp only [findMatch] at h
    cases hl : lookupDev (l.take (n + 1)) with
    | some v0 =>
      rw [hl] at h
      simp only [Option.some.injEq, Prod.mk.injEq] at h
      obtain ⟨hk, hv⟩ := h
      subst hk
      subst hv
      exact ⟨Nat.succ_le_succ (Nat.zero_le n), Nat.le_refl _, hl,
        fun m hm1 hm2 => absurd (Nat.lt_of_lt_of_le hm1 hm2) (Nat.lt_irrefl _)⟩
    | none =>
      rw [hl] at h
      obtain ⟨h1, h2, h3, h4⟩ := ih l k v h
      refine ⟨h1, Nat.le_succ_of_le h2, h3, ?_⟩
      intro m hm1 hm2
      rcases Nat.lt_or_ge m (n + 1) with hlt | hge
      · exact h4 m hm1 (Nat.lt_succ_iff.mp hlt)
      · have : m = n + 1 := Nat.le_antisymm hm2 hge
        rw [this]
        exact hl

theorem findMatch_none_lookup1 :
    ∀ (n : Nat) (l : List Char), 1 ≤ n → findMatch l n = none →
      lookupDev (l.take 1) = none := by
  intro n
  induction n with
  | zero => intro l h; cases h
  | succ n ih =>
    intro l _ h
    simp only [findMatch] at h
    cases hl : lookupDev (l.take (n + 1)) with
    | some v0 => rw [hl] at h; cases h
    | none =>
      rw [hl] at h
      cases n with
      | zero => exact hl
      | succ n2 => exact ih l (Nat.succ_le_succ (Nat.zero_le n2)) h

theorem translitCoreFuel_congr :
    ∀ (f g : Nat) (l : List Char) (i : Nat),
      l.length ≤ f → l.length ≤ g →
      translitCoreFuel f l i = translitCoreFuel g l i := by
  intro f
  induction f with
  | zero =>
    intro g l i hf _
    have hl : l = [] := List.eq_nil_of_length_eq_zero (Nat.le_zero.mp hf)
    subst hl
    cases g <;> simp [translitCoreFuel]
  | succ f ih =>
    intro g l i hf hg
    cases l with
    | nil => cases g <;> simp [translitCoreFuel]
    | cons c cs =>
      cases g with
      | zero => simp at hg
      | succ g =>
        simp only [translitCoreFuel]
        cases hm : findMatch (c :: cs) (min 8 (cs.length + 1)) with
        | none =>
          simp only [hm]
          have hlen : cs.length ≤ f := Nat.succ_le_succ_iff.mp hf
          have hlen2 : cs.length ≤ g := Nat.succ_le_succ_iff.mp hg
          rw [ih g cs (i + 1) hlen hlen2]
        | some kv =>
          obtain ⟨k, v⟩ := kv
          simp only [hm]
          obtain ⟨hk1, _, _, _⟩ := findMatch_spec _ _ _ _ hm
          simp only [List.length_cons] at hf hg
          have hdl : ((c :: cs).drop k).length ≤ f := by
            rw [List.length_drop]
            simp only [List.length_cons]
            omega
          have hdl2 : ((c :: cs).drop k).length ≤ g := by
            rw [List.length_drop]
            simp only [List.length_cons]
            omega
          rw [ih g _ (i + k) hdl hdl2]

theorem translitFrom_step (c : Char) (cs : List Char) (i k : Nat) (v : List Char)
    (hm : findMatch (c :: cs) (min 8 (cs.length + 1)) = some (k, v)) :
    translitFrom (c :: cs) i = v ++ translitFrom ((c :: cs).drop k) (i + k) := by
  obtain ⟨hk1, _, _, _⟩ := findMatch_spec _ _ _ _ hm
  unfold translitFrom
  simp only [List.length_cons, translitCoreFuel, hm]
  congr 1
  apply translitCoreFuel_congr
  · rw [List.length_drop]
    simp only [List.length_cons]
    omega
  · exact Nat.le_refl _

/-- C2.  Greedy longest-match: `findMatch` tried at `min 8 (remaining)`
returns the longest substring length at the cursor that is a table key
(every longer candidate up to the bound misses), the matcher appends the
mapped value and advances the cursor past the matched length, and the
token `"the"` yields the single mapped value for `"the"`, not the
per-character concatenation of `'t'`, `'h'`, `'e'` (which would be
`"टहई"`). -/
theorem greedy_longest_match :
    (∀ (l : List Char) (k : Nat) (v : List Char),
      findMatch l (min 8 l.length) = some (k, v) →
      1 ≤ k ∧ k ≤ min 8 l.length ∧ lookupDev (l.take k) = some v ∧
      ∀ m, k < m → m ≤ min 8 l.length → lookupDev (l.take m) = none) ∧
    (∀ (c : Char) (cs : List Char) (i k : Nat) (v : List Char),
      findMatch (c :: cs) (min 8 (cs.length + 1)) = some (k, v) →
      translitFrom (c :: cs) i = v ++ translitFrom ((c :: cs).drop k) (i + k)) ∧
    transliterateWordAdvanced "the".data = "द".data ∧
    transliterateWordAdvanced "the".data ≠ "टहई".data := by
  refine ⟨?_, ?_, by decide, by decide⟩
  · intro l k v h
    exact findMatch_spec _ _ _ _ h
  · intro c cs i k v hm
    exact translitFrom_step c cs i k v hm

/-- Witness for C2 at the core `"the"`: the matcher finds the length-3
key `"the"` at the first cursor position and consumes it whole. -/
theorem greedy_longest_match_witness :
    translitFrom ('t' :: "he".data) 0 =
      "द".data ++ translitFrom (('t' :: "he".data).drop 3) 3 :=
  greedy_longest_match.2.1 't' "he".data 0 3 "द".data (by decide)

/-! ## C10: fallback heuristics unreachable on lowercase-ASCII cores -/

set_option maxRecDepth 4000 in
theorem lookupDev_of_isLower {c : Char} (h : pyIsLower c = true) :
    lookupDev [c] ≠ none := by
  have hm := pyIsLower_iff.mp h
  exact (by decide : ∀ x ∈ lowerLetters, lookupDev [x] ≠ none) c hm

theorem findMatch_of_all_lower :
    ∀ (l : List Char), l ≠ [] → l.all pyIsLower = true →
      findMatch l (min 8 l.length) ≠ none := by
  intro l hne hall h
  cases l with
  | nil => exact hne rfl
  | cons c cs =>
    have h1 : lookupDev ((c :: cs).take 1) = none := by
      apply findMatch_none_lookup1 (min 8 (c :: cs).length)
      · simp only [List.length_cons]
        omega
      · exact h
    have hc : pyIsLower c = true := by
      have := List.all_eq_true.mp hall
      exact this c (List.mem_cons_self c cs)
    exact lookupDev_of_isLower hc (by simpa using h1)

theorem translitNoFallback_agrees_fuel :
    ∀ (f : Nat) (l : List Char) (i : Nat), l.length ≤ f →
      l.all pyIsLower = true →
      translitNoFallbackFuel f l = some (translitCoreFuel f l i) := by
  intro f
  induction f with
  | zero =>
    intro l i hf _
    have hl : l = [] := List.eq_nil_of_length_eq_zero (Nat.le_zero.mp hf)
    subst hl
    simp [translitNoFallbackFuel, translitCoreFuel]
  | succ f ih =>
    intro l i hf hall
    cases l with
    | nil => simp [translitNoFallbackFuel, translitCoreFuel]
    | cons c cs =>
      cases hm : findMatch (c :: cs) (min 8 (cs.length + 1)) with
      | none =>
        exact absurd hm
          (findMatch_of_all_lower (c :: cs) (List.cons_ne_nil c cs)
            (by simpa using hall))
      | some kv =>
        obtain ⟨k, v⟩ := kv
        simp only [translitNoFallbackFuel, translitCoreFuel, hm]
        obtain ⟨hk1, _, _, _⟩ := findMatch_spec _ _ _ _ hm
        simp only [List.length_cons] at hf
        have hdl : ((c :: cs).drop k).length ≤ f := by
          rw [List.length_drop]
          simp only [List.length_cons]
          omega
        have hdall : ((c :: cs).drop k).all pyIsLower = true := by
          rw [List.all_eq_true] at hall ⊢
          exact fun x hx => hall x (List.drop_subset k (c :: cs) hx)
        rw [ih ((c :: cs).drop k) (i + k) hdl hdall]
        rfl

/-- C10.  Every single lowercase ASCII letter is a key of the phonetic
table, so on a core of lowercase ASCII letters the greedy matcher finds a
match at every cursor position and the fallback heuristics of
`_transliterate_word_advanced` (the `'y'`/`'w'` special cases and the
pass-through branch) are never executed: the heuristics-free matcher
`translitNoFallback` succeeds and agrees with the full function. -/
theorem fallback_unreachable_ascii :
    (∀ c : Char, pyIsLower c = true → lookupDev [c] ≠ none) ∧
    (∀ l : List Char, l ≠ [] → l.all pyIsLower = true →
      findMatch l (min 8 l.length) ≠ none) ∧
    (∀ w : List Char, w.all pyIsLower = true →
      translitNoFallback w = some (transliterateWordAdvanced w)) := by
  refine ⟨fun c h => lookupDev_of_isLower h, findMatch_of_all_lower, ?_⟩
  intro w hall
  exact translitNoFallback_agrees_fuel w.length w 0 (Nat.le_refl _) hall

/-- Witness for C10 at the all-lowercase core `"hello"`: the
heuristics-free matcher succeeds and agrees with the full function. -/
theorem fallback_unreachable_ascii_witness :
    translitNoFallback "hello".data = some (transliterateWordAdvanced "hello".data) :=
  fallback_unreachable_ascii.2.2 "hello".data (by decide)

/-! ## C4: structural preservation of lines -/

set_option maxRecDepth 10000 in
theorem lookupDev_no_nl (s v : List Char) (h : lookupDev s = some v) :
    '\n' ∉ v := by
  unfold lookupDev at h
  cases hf : engToDevPairs.find? (fun p => p.1 == s) with
  | none => rw [hf] at h; cases h
  | some pr =>
    rw [hf] at h
    have hv : pr.2 = v := by simpa using h
    have hmem := List.mem_of_find?_eq_some hf
    have hnn := (by decide : ∀ p ∈ engToDevPairs, '\n' ∉ p.2) pr hmem
    exact hv ▸ hnn

theorem no_nl_translitCoreFuel :
    ∀ (f : Nat) (l : List Char) (i : Nat), '\n' ∉ l →
      '\n' ∉ translitCoreFuel f l i := by
  intro f
  induction f with
  | zero => intro l i _; simp [translitCoreFuel]
  | succ f ih =>
    intro l i hl
    cases l with
    | nil => simp [translitCoreFuel]
    | cons c cs =>
      have hc : ¬ c = '\n' := fun h => hl (h ▸ List.mem_cons_self c cs)
      have hcs : '\n' ∉ cs := fun h => hl (List.mem_cons_of_mem c h)
      cases hm : findMatch (c :: cs) (min 8 (cs.length + 1)) with
      | some kv =>
        obtain ⟨k, v⟩ := kv
        simp only [translitCoreFuel, hm]
        intro hmem
        rcases List.mem_append.mp hmem with h | h
        · obtain ⟨_, _, hlk, _⟩ := findMatch_spec _ _ _ _ hm
          exact lookupDev_no_nl _ _ hlk h
        · have hdrop : '\n' ∉ (c :: cs).drop k :=
            fun hx => hl (List.drop_subset k (c :: cs) hx)
          exact ih _ _ hdrop h
      | none =>
        simp only [translitCoreFuel, hm]
        intro hmem
        rcases List.mem_append.mp hmem with h | h
        · revert h
          split
          · split
            · decide
            · split
              · decide
              · cases hlc : lookupDev [c] with
                | some v =>
                  simp only [hlc]
                  exact lookupDev_no_nl _ _ hlc
                | none =>
                  simp only [hlc, List.mem_singleton]
                  exact fun hh => hc hh.symm
          · simp only [List.mem_singleton]
            exact fun hh => hc hh.symm
        · exact ih _ _ hcs h

theorem no_nl_processWord (w : List Char) (hw : '\n' ∉ w) :
    '\n' ∉ processWord w := by
  have hlw : '\n' ∉ w.map pyToLower := by
    intro hx
    obtain ⟨d, hd, hde⟩ := List.mem_map.mp hx
    exact hw (pyToLower_eq_nl_iff.mp hde ▸ hd)
  obtain ⟨s11, _, _⟩ := stripLead_spec (w.map pyToLower)
  have a2 := stripTrail_append (stripLead (w.map pyToLower)).2
  have hrest : '\n' ∉ (stripLead (w.map pyToLower)).2 := by
    intro hx
    exact hlw (s11 ▸ List.mem_append_right _ hx)
  have hpre : '\n' ∉ (stripLead (w.map pyToLower)).1 := by
    intro hx
    exact hlw (s11 ▸ List.mem_append_left _ hx)
  have hcore : '\n' ∉ (stripTrail (stripLead (w.map pyToLower)).2).1 := by
    intro hx
    exact hrest (a2 ▸ List.mem_append_left _ hx)
  have hsuf : '\n' ∉ (stripTrail (stripLead (w.map pyToLower)).2).2 := by
    intro hx
    exact hrest (a2 ▸ List.mem_append_right _ hx)
  simp only [processWord]
  split
  · exact hw
  · split
    · rename_i v heq
      intro hx
      rcases List.mem_append.mp hx with h | h
      · rcases List.mem_append.mp h with h2 | h2
        · exact hpre h2
        · exact lookupDev_no_nl _ _ heq h2
      · exact hsuf h
    · intro hx
      rcases List.mem_append.mp hx with h | h
      · rcases List.mem_append.mp h with h2 | h2
        · exact hpre h2
        · exact no_nl_translitCoreFuel _ _ _ hcore h2
      · exact hsuf h

theorem mem_joinSep :
    ∀ (sep : List Char) (ps : List (List Char)) (x : Char),
      x ∈ joinSep sep ps → x ∈ sep ∨ ∃ p ∈ ps, x ∈ p := by
  intro sep ps
  induction ps with
  | nil => intro x hx; simp [joinSep] at hx
  | cons p ps ih =>
    cases ps with
    | nil =>
      intro x hx
      right
      exact ⟨p, List.mem_cons_self p [], by simpa [joinSep] using hx⟩
    | cons q rest =>
      intro x hx
      simp only [joinSep] at hx
      rcases List.mem_append.mp hx with h | h
      · rcases List.mem_append.mp h with h2 | h2
        · right
          exact ⟨p, List.mem_cons_self p (q :: rest), h2⟩
        · left
          exact h2
      · rcases ih x h with h2 | h2
        · left
          exact h2
        · right
          obtain ⟨pp, hp1, hp2⟩ := h2
          exact ⟨pp, List.mem_cons_of_mem p hp1, hp2⟩

theorem splitWhiteAux_mem :
    ∀ (s acc p : List Char), p ∈ splitWhiteAux s acc →
      ∀ x ∈ p, x ∈ s ∨ x ∈ acc := by
  intro s
  induction s with
  | nil =>
    intro acc p hp x hx
    by_cases h : acc = []
    · subst h
      simp [splitWhiteAux] at hp
    · simp only [splitWhiteAux, if_neg h] at hp
      rw [List.mem_singleton.mp hp] at hx
      exact Or.inr (List.mem_reverse.mp hx)
  | cons c cs ih =>
    intro acc p hp x hx
    by_cases hsp : pyIsSpace c = true
    · by_cases h : acc = []
      · subst h
        simp only [splitWhiteAux, if_pos hsp, if_pos rfl] at hp
        rcases ih [] p hp x hx with h2 | h2
        · exact Or.inl (List.mem_cons_of_mem c h2)
        · simp at h2
      · simp only [splitWhiteAux, if_pos hsp, if_neg h] at hp
        rcases List.mem_cons.mp hp with rfl | hp2
        · exact Or.inr (List.mem_reverse.mp hx)
        · rcases ih [] p hp2 x hx with h2 | h2
          · exact Or.inl (List.mem_cons_of_mem c h2)
          · simp at h2
    · simp only [splitWhiteAux, if_neg hsp] at hp
      rcases ih (c :: acc) p hp x hx with h2 | h2
      · exact Or.inl (List.mem_cons_of_mem c h2)
      · rcases List.mem_cons.mp h2 with rfl | h3
        · exact Or.inl (List.mem_cons_self x cs)
        · exact Or.inr h3

theorem no_nl_processLine (line : List Char) (h : '\n' ∉ line) :
    '\n' ∉ processLine line := by
  unfold processLine
  split
  · simp
  · intro hx
    rcases mem_joinSep _ _ _ hx with h1 | h1
    · simp at h1
    · obtain ⟨q, hq1, hq2⟩ := h1
      obtain ⟨tok, htok, rfl⟩ := List.mem_map.mp hq1
      have htokmem : ∀ x ∈ tok, x ∈ line := by
        intro x hxx
        rcases splitWhiteAux_mem line [] tok
          (by simpa [pySplitWhite] using htok) x hxx with h2 | h2
        · exact h2
        · simp at h2
      exact no_nl_processWord tok (fun hc => h (htokmem _ hc)) hq2

theorem splitNl_ne_nil : ∀ s : List Char, splitNlChar s ≠ [] := by
  intro s
  induction s with
  | nil => simp [splitNlChar]
  | cons c cs ih =>
    by_cases h : c = '\n'
    · simp [splitNlChar, h]
    · simp only [splitNlChar, if_neg h]
      cases hs : splitNlChar cs with
      | nil => simp
      | cons p ps => simp

theorem splitNl_no_nl : ∀ (s : List Char), ∀ p ∈ splitNlChar s, '\n' ∉ p := by
  intro s
  induction s with
  | nil =>
    intro p hp
    simp only [splitNlChar, List.mem_singleton] at hp
    subst hp
    simp
  | cons c cs ih =>
    intro p hp
    by_cases h : c = '\n'
    · simp only [splitNlChar, if_pos h] at hp
      rcases List.mem_cons.mp hp with rfl | hp2
      · simp
      · exact ih p hp2
    · simp only [splitNlChar, if_neg h] at hp
      cases hs : splitNlChar cs with
      | nil =>
        rw [hs] at hp
        simp only [List.mem_singleton] at hp
        subst hp
        simp only [List.mem_singleton]
        exact fun hh => h hh.symm
      | cons q qs =>
        rw [hs] at hp
        rcases List.mem_cons.mp hp with rfl | hp2
        · intro hx
          rcases List.mem_cons.mp hx with h2 | h2
          · exact h h2.symm
          · exact ih q (hs ▸ List.mem_cons_self q qs) h2
        · exact ih p (hs ▸ List.mem_cons_of_mem q hp2)

theorem splitNl_single : ∀ (p : List Char), '\n' ∉ p → splitNlChar p = [p] := by
  intro p
  induction p with
  | nil => intro _; rfl
  | cons c cs ih =>
    intro h
    have hc : ¬ c = '\n' := fun hh => h (hh ▸ List.mem_cons_self c cs)
    simp only [splitNlChar, if_neg hc]
    rw [ih (fun hx => h (List.mem_cons_of_mem c hx))]

theorem splitNl_append :
    ∀ (p t : List Char), '\n' ∉ p →
      splitNlChar (p ++ '\n' :: t) = p :: splitNlChar t := by
  intro p
  induction p with
  | nil => intro t _; simp [splitNlChar]
  | cons c cs ih =>
    intro t h
    have hc : ¬ c = '\n' := fun hh => h (hh ▸ List.mem_cons_self c cs)
    simp only [List.cons_append, splitNlChar, if_neg hc]
    simp only [List.append_eq]
    rw [ih t (fun hx => h (List.mem_cons_of_mem c hx))]

theorem splitNl_join :
    ∀ (ps : List (List Char)), ps ≠ [] → (∀ p ∈ ps, '\n' ∉ p) →
      splitNlChar (joinSep ['\n'] ps) = ps := by
  intro ps
  induction ps with
  | nil => intro h _; cases h rfl
  | cons p ps ih =>
    intro _ hall
    cases ps with
    | nil =>
      simp only [joinSep]
      exact splitNl_single p (hall p (List.mem_cons_self p []))
    | cons q rest =>
      simp only [joinSep]
      rw [List.append_assoc, List.singleton_append,
        splitNl_append p _ (hall p (List.mem_cons_self p (q :: rest)))]
      rw [ih (by simp) (fun x hx => hall x (List.mem_cons_of_mem p hx))]

/-- C4.  Structural preservation: splitting the transliteration output on
line breaks gives exactly the image of the input lines under the per-line
transform (hence the same number of lines); a blank line becomes the
empty line; the empty string maps to the empty string without error. -/
theorem structural_preservation :
    (∀ t : List Char,
      splitNlChar (translitList t) = (splitNlChar t).map processLine ∧
      (splitNlChar (translitList t)).length = (splitNlChar t).length) ∧
    (∀ line : List Char, pyStrip line = [] → processLine line = []) ∧
    englishToDevanagariTransliteration "" = "" := by
  refine ⟨?_, ?_, by decide⟩
  · intro t
    have h1 : splitNlChar (translitList t) = (splitNlChar t).map processLine := by
      unfold translitList
      apply splitNl_join
      · simp only [ne_eq, List.map_eq_nil_iff]
        exact splitNl_ne_nil t
      · intro q hq
        obtain ⟨line, hline, rfl⟩ := List.mem_map.mp hq
        exact no_nl_processLine line (splitNl_no_nl t line hline)
    exact ⟨h1, by rw [h1, List.length_map]⟩
  · intro line h
    simp [processLine, h]

/-- Witness for C4: a whitespace-only (blank) line is emitted as the
empty line. -/
theorem structural_preservation_witness : processLine "   ".data = [] :=
  structural_preservation.2.1 "   ".data (by decide)

/-! ## C9: case-insensitivity of the transliteration -/

theorem splitNl_map_lower :
    ∀ t : List Char,
      splitNlChar (t.map pyToLower) = (splitNlChar t).map (List.map pyToLower) := by
  intro t
  induction t with
  | nil => simp [splitNlChar]
  | cons c cs ih =>
    by_cases h : c = '\n'
    · subst h
      have hl : pyToLower '\n' = '\n' := by decide
      simp [splitNlChar, hl, ih]
    · have h2 : ¬ pyToLower c = '\n' := fun hh => h (pyToLower_eq_nl_iff.mp hh)
      simp only [List.map_cons, splitNlChar, if_neg h, if_neg h2, ih]
      cases hs : splitNlChar cs with
      | nil => exact absurd hs (splitNl_ne_nil cs)
      | cons p ps => simp

theorem splitWhiteAux_map_lower :
    ∀ (s acc : List Char),
      splitWhiteAux (s.map pyToLower) (acc.map pyToLower) =
        (splitWhiteAux s acc).map (List.map pyToLower) := by
  intro s
  induction s with
  | nil =>
    intro acc
    by_cases h : acc = []
    · subst h
      simp [splitWhiteAux]
    · have h2 : acc.map pyToLower ≠ [] := by simpa using h
      simp only [List.map_nil, splitWhiteAux, if_neg h, if_neg h2]
      simp [List.map_reverse]
  | cons c cs ih =>
    intro acc
    by_cases hsp : pyIsSpace c = true
    · have hsp2 : pyIsSpace (pyToLower c) = true := by
        rw [pyIsSpace_pyToLower]
        exact hsp
      have ih0 := ih []
      simp only [List.map_nil] at ih0
      by_cases h : acc = []
      · subst h
        simp only [List.map_cons, List.map_nil, splitWhiteAux, if_pos hsp,
          if_pos hsp2, if_pos rfl]
        exact ih0
      · have h2 : acc.map pyToLower ≠ [] := by simpa using h
        simp only [List.map_cons, splitWhiteAux, if_pos hsp, if_pos hsp2,
          if_neg h, if_neg h2, ih0, List.map_cons, List.map_reverse]
    · have hsp2 : ¬ pyIsSpace (pyToLower c) = true := by
        rw [pyIsSpace_pyToLower]
        exact hsp
      simp only [List.map_cons, splitWhiteAux, if_neg hsp, if_neg hsp2]
      have := ih (c :: acc)
      simpa using this

theorem pyStrip_eq_nil_iff (l : List Char) :
    pyStrip l = [] ↔ ∀ x ∈ l, pyIsSpace x = true := by
  unfold pyStrip
  rw [List.reverse_eq_nil_iff, List.dropWhile_eq_nil_iff]
  constructor
  · intro h x hx
    rw [← List.takeWhile_append_dropWhile pyIsSpace l] at hx
    rcases List.mem_append.mp hx with h2 | h2
    · exact List.mem_takeWhile_imp h2
    · exact h x (List.mem_reverse.mpr h2)
  · intro h x hx
    exact h x ((List.dropWhile_suffix pyIsSpace).subset (List.mem_reverse.mp hx))

theorem pyStrip_map_lower_nil (l : List Char) :
    pyStrip (l.map pyToLower) = [] ↔ pyStrip l = [] := by
  rw [pyStrip_eq_nil_iff, pyStrip_eq_nil_iff]
  constructor
  · intro h x hx
    have := h (pyToLower x) (List.mem_map_of_mem _ hx)
    rwa [pyIsSpace_pyToLower] at this
  · intro h x hx
    obtain ⟨d, hd, rfl⟩ := List.mem_map.mp hx
    rw [pyIsSpace_pyToLower]
    exact h d hd

theorem processWord_map_lower (w : List Char) :
    processWord (w.map pyToLower) = processWord w := by
  have hlw : (w.map pyToLower).map pyToLower = w.map pyToLower := by
    rw [List.map_map]
    exact List.map_congr_left fun x _ => pyToLower_idem x
  simp only [processWord, hlw]
  by_cases hc : (stripTrail (stripLead (w.map pyToLower)).2).1 = []
  · rw [if_pos hc, if_pos hc]
    obtain ⟨s11, s12, _⟩ := stripLead_spec (w.map pyToLower)
    have a2 := stripTrail_append (stripLead (w.map pyToLower)).2
    have s2m := stripTrail_suffix_mem (stripLead (w.map pyToLower)).2
    rw [hc] at a2
    have hfix : ∀ x ∈ w, pyToLower x = x := by
      intro x hx
      have hmem : pyToLower x ∈ w.map pyToLower := List.mem_map_of_mem _ hx
      rw [s11] at hmem
      rcases List.mem_append.mp hmem with h2 | h2
      · exact leadPunct_pyToLower (s12 _ h2)
      · rw [a2] at h2
        simp only [List.nil_append] at h2
        exact trailPunct_pyToLower (s2m _ h2)
    exact (List.map_congr_left hfix).trans (List.map_id w)
  · rw [if_neg hc, if_neg hc]

theorem processLine_map_lower (line : List Char) :
    processLine (line.map pyToLower) = processLine line := by
  unfold processLine
  by_cases hb : pyStrip line = []
  · rw [if_pos hb, if_pos ((pyStrip_map_lower_nil line).mpr hb)]
  · rw [if_neg hb, if_neg (fun h => hb ((pyStrip_map_lower_nil line).mp h))]
    unfold pySplitWhite
    have h2 := splitWhiteAux_map_lower line []
    simp only [List.map_nil] at h2
    rw [h2, List.map_map]
    exact congrArg (joinSep [' '])
      (List.map_congr_left fun tok _ => processWord_map_lower tok)

/-- C9.  Case-insensitivity: transliterating the lower-cased text gives
exactly the same output as transliterating the text itself — every token
is lower-cased before any lookup, and tokens emitted verbatim (empty
core) consist of punctuation only, which carries no case. -/
theorem case_insensitive :
    (∀ t : List Char, translitList (t.map pyToLower) = translitList t) ∧
    englishToDevanagariTransliteration "The BOY" =
      englishToDevanagariTransliteration "the boy" := by
  constructor
  · intro t
    unfold translitList
    rw [splitNl_map_lower, List.map_map]
    exact congrArg (joinSep ['\n'])
      (List.map_congr_left fun line _ => processLine_map_lower line)
  · decide

theorem sds_ne_nil : ∀ s : List Char, splitDotSpace s ≠ [] := by
  intro s
  induction s using splitDotSpace.induct with
  | case1 => simp [splitDotSpace]
  | case2 rest ih => simp [splitDotSpace]
  | case3 c cs h ih =>
    simp only [splitDotSpace]
    cases splitDotSpace cs <;> simp [consHead]
/-! ## Cleanup-pass capitalization machinery (for C5, C7, C8) -/

theorem containsSub_eq_true_iff :
    ∀ (s pat : List Char), containsSub s pat = true ↔ pat <:+: s := by
  intro s pat
  induction s with
  | nil =>
    simp only [containsSub, Bool.or_false, List.isPrefixOf_iff_prefix]
    constructor
    · exact fun h => h.isInfix
    · intro h
      have := List.sublist_nil.mp h.sublist
      subst this
      exact List.nil_prefix
  | cons a s ih =>
    simp only [containsSub, Bool.or_eq_true, List.isPrefixOf_iff_prefix, ih]
    rw [List.infix_cons_iff]

theorem containsSub_mono {s t pat : List Char} (hts : t <:+: s)
    (h : containsSub s pat = false) : containsSub t pat = false := by
  rw [Bool.eq_false_iff] at h ⊢
  intro hh
  exact h ((containsSub_eq_true_iff s pat).mpr (((containsSub_eq_true_iff t pat).mp hh).trans hts))

theorem sds_head :
    ∀ (cs q : List Char) (qs : List (List Char)),
      splitDotSpace cs = q :: qs → ∀ d q2, q = d :: q2 → ∃ cs2, cs = d :: cs2 := by
  intro cs
  induction cs using splitDotSpace.induct with
  | case1 =>
    intro q qs hq d q2 hd
    simp only [splitDotSpace, List.cons.injEq] at hq
    rw [← hq.1] at hd
    cases hd
  | case2 rest ih =>
    intro q qs hq d q2 hd
    simp only [splitDotSpace, List.cons.injEq] at hq
    rw [← hq.1] at hd
    cases hd
  | case3 c cs h ih =>
    intro q qs hq d q2 hd
    simp only [splitDotSpace] at hq
    cases hsd : splitDotSpace cs with
    | nil => exact absurd hsd (sds_ne_nil cs)
    | cons r rs =>
      rw [hsd] at hq
      simp only [consHead, List.cons.injEq] at hq
      rw [← hq.1] at hd
      injection hd with hd1 _
      exact ⟨cs, by rw [hd1]⟩

theorem sds_no_ds :
    ∀ (s : List Char), ∀ p ∈ splitDotSpace s, containsSub p ['.', ' '] = false := by
  intro s
  induction s using splitDotSpace.induct with
  | case1 =>
    intro p hp
    simp only [splitDotSpace, List.mem_singleton] at hp
    subst hp
    decide
  | case2 rest ih =>
    intro p hp
    simp only [splitDotSpace] at hp
    rcases List.mem_cons.mp hp with rfl | hp2
    · decide
    · exact ih p hp2
  | case3 c cs h ih =>
    intro p hp
    simp only [splitDotSpace] at hp
    cases hsd : splitDotSpace cs with
    | nil => exact absurd hsd (sds_ne_nil cs)
    | cons q qs =>
      rw [hsd] at hp
      simp only [consHead] at hp
      rcases List.mem_cons.mp hp with rfl | hp2
      · have hq : containsSub q ['.', ' '] = false :=
          ih q (hsd ▸ List.mem_cons_self q qs)
        simp only [containsSub, Bool.or_eq_false_iff]
        refine ⟨?_, hq⟩
        cases hq0 : q with
        | nil => simp [List.isPrefixOf]
        | cons d q2 =>
          obtain ⟨cs2, hcs2⟩ := sds_head cs q qs hsd d q2 hq0
          by_cases hcdot : c = '.'
          · by_cases hdsp : d = ' '
            · exact (h cs2 hcdot (by rw [hcs2, hdsp])).elim
            · simp [List.isPrefixOf, Ne.symm hdsp]
          · simp [List.isPrefixOf, Ne.symm hcdot]
      · exact ih p (hsd ▸ List.mem_cons_of_mem q hp2)

theorem sds_cons_of_ne (c : Char) (cs : List Char)
    (h : ∀ rest, c = '.' → cs = ' ' :: rest → False) :
    splitDotSpace (c :: cs) = consHead c (splitDotSpace cs) := by
  conv_lhs => rw [splitDotSpace.eq_def]
  split
  · rename_i heq
    cases heq
  · rename_i rest heq
    injection heq with h1 h2
    exact (h rest h1 h2).elim
  · rename_i c2 cs2 _ heq
    injection heq with h1 h2
    rw [h1, h2]

theorem sds_single :
    ∀ (p : List Char), containsSub p ['.', ' '] = false → splitDotSpace p = [p] := by
  intro p
  induction p using splitDotSpace.induct with
  | case1 => intro _; rfl
  | case2 rest ih =>
    intro hc
    have : containsSub ('.' :: ' ' :: rest) ['.', ' '] = true := by
      simp [containsSub, List.isPrefixOf]
    rw [this] at hc
    cases hc
  | case3 c cs h ih =>
    intro hc
    have hc2 : containsSub cs ['.', ' '] = false :=
      (Bool.or_eq_false_iff.mp (by simpa [containsSub] using hc)).2
    rw [sds_cons_of_ne c cs h, ih hc2]
    rfl

theorem sds_append :
    ∀ (p t : List Char), containsSub p ['.', ' '] = false →
      splitDotSpace (p ++ '.' :: ' ' :: t) = p :: splitDotSpace t := by
  intro p
  induction p using splitDotSpace.induct with
  | case1 =>
    intro t _
    simp [splitDotSpace]
  | case2 rest ih =>
    intro t hc
    have : containsSub ('.' :: ' ' :: rest) ['.', ' '] = true := by
      simp [containsSub, List.isPrefixOf]
    rw [this] at hc
    cases hc
  | case3 c cs h ih =>
    intro t hc
    have hc2 : containsSub cs ['.', ' '] = false :=
      (Bool.or_eq_false_iff.mp (by simpa [containsSub] using hc)).2
    have hcond : ∀ rest, c = '.' → cs ++ '.' :: ' ' :: t = ' ' :: rest → False := by
      intro rest hcdot hcs
      cases cs with
      | nil => simp at hcs
      | cons d cs2 =>
        simp only [List.cons_append, List.cons.injEq] at hcs
        exact h cs2 hcdot (by rw [hcs.1])
    rw [List.cons_append, sds_cons_of_ne c _ hcond, ih t hc2]
    rfl

theorem sds_join :
    ∀ (ps : List (List Char)), ps ≠ [] →
      (∀ p ∈ ps, containsSub p ['.', ' '] = false) →
      splitDotSpace (joinSep ('.' :: [' ']) ps) = ps := by
  intro ps
  induction ps with
  | nil => intro h _; cases h rfl
  | cons p ps ih =>
    intro _ hall
    cases ps with
    | nil =>
      simp only [joinSep]
      exact sds_single p (hall p (List.mem_cons_self p []))
    | cons q rest =>
      simp only [joinSep]
      rw [List.append_assoc, List.cons_append, List.singleton_append,
        sds_append p _ (hall p (List.mem_cons_self p (q :: rest)))]
      rw [ih (by simp) (fun x hx => hall x (List.mem_cons_of_mem p hx))]

theorem head?_eq_of_listPrefix {x y : List Char} (h : x <+: y) {c : Char}
    {cs : List Char} (hx : x = c :: cs) : y.head? = some c := by
  obtain ⟨t, ht⟩ := h
  subst hx
  rw [← ht]
  rfl

theorem pyStrip_first (s : List Char) (c : Char) (cs : List Char)
    (h : pyStrip s = c :: cs) : pyIsSpace c = false := by
  unfold pyStrip at h
  have hsuf : (s.dropWhile pyIsSpace).reverse.dropWhile pyIsSpace <:+
      (s.dropWhile pyIsSpace).reverse := List.dropWhile_suffix pyIsSpace
  have hpre := List.reverse_prefix.mpr hsuf
  rw [List.reverse_reverse] at hpre
  have hhead := head?_eq_of_listPrefix hpre h
  have hh := List.head?_dropWhile_not pyIsSpace s
  rw [hhead] at hh
  simpa using hh

theorem pyStrip_last (s : List Char) (c : Char) (cs : List Char)
    (h : (pyStrip s).reverse = c :: cs) : pyIsSpace c = false := by
  unfold pyStrip at h
  rw [List.reverse_reverse] at h
  have hh := List.head?_dropWhile_not pyIsSpace (s.dropWhile pyIsSpace).reverse
  rw [h] at hh
  simpa using hh

theorem pyStrip_no_op (c : Char) (cs : List Char)
    (h1 : pyIsSpace c = false)
    (h2 : ∀ d ds, (c :: cs).reverse = d :: ds → pyIsSpace d = false) :
    pyStrip (c :: cs) = c :: cs := by
  unfold pyStrip
  rw [List.dropWhile_cons_of_neg (by simp [h1])]
  cases hr : (c :: cs).reverse with
  | nil => simp at hr
  | cons d ds =>
    rw [List.dropWhile_cons_of_neg (by simp [h2 d ds hr])]
    have hrr := congrArg List.reverse hr
    rw [List.reverse_reverse] at hrr
    exact hrr.symm

theorem capSentence_shape (s : List Char) :
    capSentence s = [] ∨
      ∃ c cs, capSentence s = pyToUpper c :: cs ∧ pyStrip s = c :: cs := by
  by_cases hs : s = []
  · left
    simp [capSentence, hs]
  · cases hst : pyStrip s with
    | nil =>
      left
      simp [capSentence, hs, hst]
    | cons c cs =>
      right
      exact ⟨c, cs, by simp [capSentence, hs, hst], rfl⟩

theorem capSentence_nil : capSentence [] = [] := rfl

theorem capSentence_idem (s : List Char) :
    capSentence (capSentence s) = capSentence s := by
  rcases capSentence_shape s with h | ⟨c, cs, hu, hst⟩
  · rw [h, capSentence_nil]
  · have hhead : pyIsSpace c = false := pyStrip_first s c cs hst
    have hlast : ∀ d ds, (c :: cs).reverse = d :: ds → pyIsSpace d = false := by
      intro d ds hd
      exact pyStrip_last s d ds (by rw [hst]; exact hd)
    have hstripu : pyStrip (pyToUpper c :: cs) = pyToUpper c :: cs := by
      apply pyStrip_no_op
      · rw [pyIsSpace_pyToUpper]
        exact hhead
      · intro d ds hd
        cases cs with
        | nil =>
          simp only [List.reverse_cons, List.reverse_nil, List.nil_append,
            List.cons.injEq] at hd
          rw [← hd.1, pyIsSpace_pyToUpper]
          exact hhead
        | cons e cs2 =>
          rw [List.reverse_cons] at hd
          cases hcr : (e :: cs2).reverse with
          | nil => simp at hcr
          | cons r rs =>
            rw [hcr] at hd
            simp only [List.cons_append, List.cons.injEq] at hd
            rw [← hd.1]
            apply hlast r (rs ++ [c])
            rw [List.reverse_cons, hcr, List.cons_append]
    rw [hu]
    have hne : pyToUpper c :: cs ≠ [] := List.cons_ne_nil _ _
    simp only [capSentence, if_neg hne, hstripu, pyToUpper_idem]

theorem capSentence_no_ds (s : List Char)
    (h : containsSub s ['.', ' '] = false) :
    containsSub (capSentence s) ['.', ' '] = false := by
  rcases capSentence_shape s with hsh | ⟨c, cs, hu, hst⟩
  · rw [hsh]
    decide
  · have hinf : (c :: cs) <:+: s := by
      rw [← hst]
      unfold pyStrip
      have hsuf : (s.dropWhile pyIsSpace).reverse.dropWhile pyIsSpace <:+
          (s.dropWhile pyIsSpace).reverse := List.dropWhile_suffix pyIsSpace
      have hpre := List.reverse_prefix.mpr hsuf
      rw [List.reverse_reverse] at hpre
      exact hpre.isInfix.trans (List.dropWhile_suffix pyIsSpace).isInfix
    have hstripno : containsSub (c :: cs) ['.', ' '] = false :=
      containsSub_mono hinf h
    rw [hu]
    simp only [containsSub, Bool.or_eq_false_iff] at hstripno ⊢
    refine ⟨?_, hstripno.2⟩
    cases cs with
    | nil => simp [List.isPrefixOf]
    | cons d cs2 =>
      by_cases hud : pyToUpper c = '.'
      · have hcd : c = '.' := pyToUpper_eq_dot hud
        by_cases hdsp : d = ' '
        · exfalso
          have : ('.' :: [' ']).isPrefixOf (c :: d :: cs2) = true := by
            rw [hcd, hdsp]
            simp [List.isPrefixOf]
          rw [this] at hstripno
          cases hstripno.1
        · simp [List.isPrefixOf, hud, Ne.symm hdsp]
      · simp [List.isPrefixOf, Ne.symm hud]

theorem joinSep_first_not_lower :
    ∀ (qs : List (List Char)) (c : Char) (cs : List Char),
      (∀ q ∈ qs, ∀ d ds, q = d :: ds → pyIsLower d = false) →
      joinSep ('.' :: [' ']) qs = c :: cs → pyIsLower c = false := by
  intro qs
  induction qs with
  | nil =>
    intro c cs _ h
    simp [joinSep] at h
  | cons q qs ih =>
    cases qs with
    | nil =>
      intro c cs hq h
      simp only [joinSep] at h
      exact hq q (List.mem_cons_self q []) c cs h
    | cons q2 rest =>
      intro c cs hq h
      simp only [joinSep] at h
      cases q with
      | nil =>
        simp only [List.nil_append, List.cons_append] at h
        injection h with h1 _
        rw [← h1]
        decide
      | cons d q3 =>
        simp only [List.cons_append] at h
        injection h with h1 _
        rw [← h1]
        exact hq (d :: q3) (List.mem_cons_self _ _) d q3 rfl

theorem capSentence_head_not_lower (p : List Char) :
    ∀ d ds, capSentence p = d :: ds → pyIsLower d = false := by
  intro d ds h
  rcases capSentence_shape p with hsh | ⟨c, cs, hu, _⟩
  · rw [hsh] at h
    cases h
  · rw [hu] at h
    injection h with h1 _
    rw [← h1]
    exact pyIsLower_pyToUpper c

theorem capSent_first_not_lower (z : List Char) :
    ∀ c cs, capitalizeSentences z = c :: cs → pyIsLower c = false := by
  intro c cs h
  apply joinSep_first_not_lower ((splitDotSpace z).map capSentence) c cs ?_ h
  intro q hq d ds hqd
  obtain ⟨p, _, rfl⟩ := List.mem_map.mp hq
  exact capSentence_head_not_lower p d ds hqd

theorem fixFirst_capSent (z : List Char) :
    fixFirst (capitalizeSentences z) = capitalizeSentences z := by
  cases hcz : capitalizeSentences z with
  | nil => rfl
  | cons c cs =>
    have hl := capSent_first_not_lower z c cs hcz
    simp [fixFirst, hl]

theorem splitDotSpace_capSent (z : List Char) :
    splitDotSpace (capitalizeSentences z) = (splitDotSpace z).map capSentence := by
  unfold capitalizeSentences
  apply sds_join
  · simp only [ne_eq, List.map_eq_nil_iff]
    exact sds_ne_nil z
  · intro q hq
    obtain ⟨p, hp, rfl⟩ := List.mem_map.mp hq
    exact capSentence_no_ds p (sds_no_ds z p hp)

theorem capSent_idem (z : List Char) :
    capitalizeSentences (capitalizeSentences z) = capitalizeSentences z := by
  rw [show capitalizeSentences (capitalizeSentences z) =
      joinSep ('.' :: [' '])
        ((splitDotSpace (capitalizeSentences z)).map capSentence) from rfl]
  rw [splitDotSpace_capSent, List.map_map]
  rw [show List.map (capSentence ∘ capSentence) (splitDotSpace z) =
      List.map capSentence (splitDotSpace z) from
    List.map_congr_left (fun p _ => capSentence_idem p)]
  rfl

/-! ## C5 (amended), C7 (amended), C8 (amended) -/

/-- C5 amended.  The cleanup pass is not idempotent in general (one
`str.replace` pass can leave residual patterns, e.g. on `"a  ."`).  It is idempotent on every input whose
cleaned output is left unchanged by the symbol-removal and the
replacement passes: the second run then reduces to re-capitalization,
which changes nothing. -/
theorem cleanup_idempotent_amended :
    ∀ s : List Char,
      removeSyms (cleanRomanization s) = cleanRomanization s →
      applyReplacements (cleanRomanization s) = cleanRomanization s →
      cleanRomanization (cleanRomanization s) = cleanRomanization s := by
  intro s h1 h2
  show fixFirst (capitalizeSentences
    (applyReplacements (removeSyms (cleanRomanization s)))) = cleanRomanization s
  rw [h1, h2]
  have hcs : cleanRomanization s =
      capitalizeSentences (applyReplacements (removeSyms s)) := by
    show fixFirst (capitalizeSentences _) = _
    exact fixFirst_capSent _
  rw [hcs, capSent_idem]
  exact fixFirst_capSent _

set_option maxRecDepth 10000 in
/-- Witness for C5 (amended) at `"xyz"`: its cleaned form `"Xyz"` is a
fixpoint of the symbol and replacement passes, so cleanup is idempotent
there. -/
theorem cleanup_idempotent_amended_witness :
    cleanRomanization (cleanRomanization "xyz".data) =
      cleanRomanization "xyz".data :=
  cleanup_idempotent_amended "xyz".data (by decide) (by decide)

/-- C7 amended.  The character-mapping loop of the fallback path passes
every unmapped character through unchanged, and the fallback is total
(empty input gives empty output, never an error); but the whole function
additionally runs the cleanup pass on the mapped text, which may strip or
alter characters (the tilde is removed, for example), so
unmapped characters are not always preserved in the final result. -/
theorem fallback_passthrough_amended :
    (∀ s : List Char, (∀ c ∈ s, enhancedLookup c = none) → charMapPass s = s) ∧
    (∀ s : List Char,
      enhancedManualHindiToRoman s = cleanRomanization (charMapPass s)) ∧
    enhancedManualHindiToRoman [] = [] := by
  refine ⟨?_, fun s => rfl, by decide⟩
  intro s
  induction s with
  | nil => intro _; rfl
  | cons c cs ih =>
    intro h
    have hc := h c (List.mem_cons_self c cs)
    simp only [charMapPass, fallbackChar, hc]
    rw [ih (fun x hx => h x (List.mem_cons_of_mem c hx))]
    simp [ite_self]

/-- Witness for C7 (amended): a punctuation-only string maps through the
character loop unchanged. -/
theorem fallback_passthrough_amended_witness :
    charMapPass "!?".data = "!?".data :=
  fallback_passthrough_amended.1 "!?".data (by decide)

/-- C8 amended.  When the cleaned output is non-empty, its first
character is never a lowercase letter, and if it is a cased (ASCII)
letter it is uppercase; moreover every sentence of the output (split at
the literal `". "`) starts with a character that uppercasing leaves
unchanged, and the output is exactly the `". "`-rejoin of the capitalized
sentences.  For an output starting with an uncased alphabetic character
(e.g. Devanagari) "uppercase" does not hold, which is what the amendment
restricts. -/
theorem capitalization_amended :
    ∀ t : List Char,
      (∀ c cs, cleanRomanization t = c :: cs →
        pyIsLower c = false ∧
        ((pyIsLower c || pyIsUpper c) = true → pyIsUpper c = true)) ∧
      (∀ p ∈ splitDotSpace (cleanRomanization t), ∀ c cs, p = c :: cs →
        pyToUpper c = c) ∧
      cleanRomanization t =
        joinSep ('.' :: [' '])
          ((splitDotSpace (applyReplacements (removeSyms t))).map capSentence) := by
  intro t
  have hct : cleanRomanization t =
      capitalizeSentences (applyReplacements (removeSyms t)) := by
    show fixFirst (capitalizeSentences _) = _
    exact fixFirst_capSent _
  refine ⟨?_, ?_, hct⟩
  · intro c cs h
    have hl : pyIsLower c = false := by
      rw [hct] at h
      exact capSent_first_not_lower _ c cs h
    exact ⟨hl, fun ha => pyIsUpper_of_alpha_not_lower ha hl⟩
  · intro p hp c cs hpc
    rw [hct, splitDotSpace_capSent] at hp
    obtain ⟨q, _, rfl⟩ := List.mem_map.mp hp
    rcases capSentence_shape q with hsh | ⟨c0, cs0, hu, _⟩
    · rw [hsh] at hpc
      cases hpc
    · rw [hu] at hpc
      simp only [List.cons.injEq] at hpc
      rw [← hpc.1]
      exact pyToUpper_idem c0

set_option maxRecDepth 10000 in
set_option maxHeartbeats 2000000 in
/-- Witness for C8 (amended) at `"ab. cd"`: the cleaned output is
`"Ab. Cd"`, whose first character is an uppercase ASCII letter. -/
theorem capitalization_amended_witness : pyIsUpper 'A' = true :=
  (((capitalization_amended "ab. cd".data).1 'A' "b. Cd".data (by decide)).2) (by decide)

end TextToText
